import Mathlib

/-!
Verification development for the personio-go client library.

The Go source is shallowly embedded as follows:

* JSON-decoded dynamic values (`interface{}` filled by `encoding/json`)
  become the inductive `JsonValue`.  JSON numbers always decode to
  `float64` in Go; they are modelled exactly as rationals.
* `time.Time` instants are modelled as their integer nanosecond timestamp;
  `time.Duration` is an `Int` and `time.Time.Sub` clamps the difference to
  the int64 range exactly as documented for Go (`satDuration`).
* Go `nil` interface values become `Option`; a Go function returning
  `(T, error)` becomes `Except` with an abstract error type.
* The HTTP transport is an explicit collaborator: the time-off paginator
  takes a function from the issued query to the decoded page (or an error),
  and the request runner `doRequest` takes the outcome of the single HTTP
  exchange (and of the authentication exchange, should one run) as input.
-/

/-- A dynamically typed JSON value as produced by Go's `encoding/json` into
an `interface{}` slot.  The `time` constructor covers `time.Time` values
stored programmatically in an attribute (`GetTimeValue` has a case for it). -/
inductive JsonValue where
  | num (x : ℚ)
  | str (s : String)
  | bool (b : Bool)
  | arr (xs : List JsonValue)
  | obj (fields : List (String × JsonValue))
  | time (t : Int)

/-- Embedding of the struct `Attribute` (personio.go): label, dynamically
typed value (`none` = Go `nil`), declared type tag and universal id.
`Type` is a Lean keyword, hence the field name `Type'`. -/
structure Attribute where
  Label : String
  Value : Option JsonValue
  Type' : String
  UniversalId : String

/-- Truncation of a JSON number toward zero, the observable behaviour of
Go's `int64(v)` conversion from `float64` for in-range values. -/
def truncToInt (x : ℚ) : Int :=
  if 0 ≤ x then ⌊x⌋ else ⌈x⌉

/-- Embedding of `Attribute.GetIntValue`: requires tag `integer` and a
numeric (`float64`) raw value. -/
def Attribute.GetIntValue (a : Attribute) : Option Int :=
  if a.Type' = "integer" then
    match a.Value with
    | some (JsonValue.num x) => some (truncToInt x)
    | _ => none
  else none

/-- Embedding of `Attribute.GetFloatValue`: requires tag `integer` or
`decimal` and a numeric raw value. -/
def Attribute.GetFloatValue (a : Attribute) : Option ℚ :=
  if a.Type' = "integer" ∨ a.Type' = "decimal" then
    match a.Value with
    | some (JsonValue.num x) => some x
    | _ => none
  else none

/-- Embedding of `Attribute.GetStringValue`: requires tag `standard` or
`multiline` and a string raw value. -/
def Attribute.GetStringValue (a : Attribute) : Option String :=
  if a.Type' = "standard" ∨ a.Type' = "multiline" then
    match a.Value with
    | some (JsonValue.str s) => some s
    | _ => none
  else none

/-- Splitting a character list at every `,`, keeping empty segments
(the segments between consecutive separators). -/
def splitCommaSegments : List Char → List (List Char)
  | [] => [[]]
  | c :: cs =>
    if c = ',' then [] :: splitCommaSegments cs
    else
      match splitCommaSegments cs with
      | [] => [[c]]
      | seg :: segs => (c :: seg) :: segs

/-- Embedding of `strings.FieldsFunc(s, c == ',')`: the maximal runs of
non-comma characters of `s`, in order; empty runs are dropped, nothing is
trimmed. -/
def fieldsFuncComma (s : String) : List String :=
  ((splitCommaSegments s.data).filter (fun seg => ¬ seg = [])).map (fun seg => String.mk seg)

/-- Embedding of `Attribute.GetListValue`: requires tag `list` and a string
raw value, which is split on commas via `strings.FieldsFunc`. -/
def Attribute.GetListValue (a : Attribute) : Option (List String) :=
  if a.Type' = "list" then
    match a.Value with
    | some (JsonValue.str s) => some (fieldsFuncComma s)
    | _ => none
  else none

/-- Embedding of `Attribute.GetTimeValue`.  The RFC3339 parser
(`time.Parse(time.RFC3339, s)`) is taken as a parameter `parse`; the method
returns its result for a string raw value under tag `date`, the instant
itself for a `time.Time` raw value, and nothing otherwise. -/
def Attribute.GetTimeValue (parse : String → Option Int) (a : Attribute) : Option Int :=
  if a.Type' = "date" then
    match a.Value with
    | some (JsonValue.str s) => parse s
    | some (JsonValue.time t) => some t
    | _ => none
  else none

/-- Embedding of `Attribute.GetMapValue`: requires tag `standard` and an
object raw value holding an object under key `attributes`; every failed
type assertion in the Go code yields a `nil` map, i.e. the empty mapping. -/
def Attribute.GetMapValue (a : Attribute) : List (String × JsonValue) :=
  if a.Type' = "standard" then
    match a.Value with
    | some (JsonValue.obj fields) =>
      match fields.lookup "attributes" with
      | some (JsonValue.obj attrs) => attrs
      | _ => []
    | _ => []
  else []

/-- Embedding of the struct `AttributeContainer`: a Go map from key to
`Attribute`, modelled as an association list with unique keys. -/
structure AttributeContainer where
  Attributes : List (String × Attribute)

/-- The zero value of `Attribute`, produced by indexing a Go map at an
absent key: empty strings and a `nil` value. -/
def zeroAttribute : Attribute := ⟨"", none, "", ""⟩

/-- Go map indexing `ac.Attributes[key]`: the stored attribute, or the zero
value when the key is absent. -/
def AttributeContainer.attrAt (ac : AttributeContainer) (key : String) : Attribute :=
  (ac.Attributes.lookup key).getD zeroAttribute

/-- Embedding of `AttributeContainer.GetIntAttribute`. -/
def AttributeContainer.GetIntAttribute (ac : AttributeContainer) (key : String) : Option Int :=
  (ac.attrAt key).GetIntValue

/-- Embedding of `AttributeContainer.GetFloatAttribute`. -/
def AttributeContainer.GetFloatAttribute (ac : AttributeContainer) (key : String) : Option ℚ :=
  (ac.attrAt key).GetFloatValue

/-- Embedding of `AttributeContainer.GetStringAttribute`. -/
def AttributeContainer.GetStringAttribute (ac : AttributeContainer) (key : String) : Option String :=
  (ac.attrAt key).GetStringValue

/-- Embedding of `AttributeContainer.GetListAttribute`. -/
def AttributeContainer.GetListAttribute (ac : AttributeContainer) (key : String) : Option (List String) :=
  (ac.attrAt key).GetListValue

/-- Embedding of `AttributeContainer.GetTimeAttribute`. -/
def AttributeContainer.GetTimeAttribute (ac : AttributeContainer) (parse : String → Option Int) (key : String) : Option Int :=
  (ac.attrAt key).GetTimeValue parse

/-- Embedding of `AttributeContainer.GetMapAttribute`. -/
def AttributeContainer.GetMapAttribute (ac : AttributeContainer) (key : String) : List (String × JsonValue) :=
  (ac.attrAt key).GetMapValue

/-- Runtime-shape test: is the raw value a JSON number (Go `float64`)? -/
def isNumVal : Option JsonValue → Bool
  | some (JsonValue.num _) => true
  | _ => false

/-- Runtime-shape test: is the raw value a string? -/
def isStrVal : Option JsonValue → Bool
  | some (JsonValue.str _) => true
  | _ => false

/-- Runtime-shape test: is the raw value a string or a `time.Time` instant,
the two shapes `GetTimeValue` accepts? -/
def isTimeShapeVal : Option JsonValue → Bool
  | some (JsonValue.str _) => true
  | some (JsonValue.time _) => true
  | _ => false

/-- Runtime-shape test: is the raw value a JSON object? -/
def isObjVal : Option JsonValue → Bool
  | some (JsonValue.obj _) => true
  | _ => false

/-- Go `math.MinInt64`, the smallest `time.Duration` (in nanoseconds). -/
def minDuration : Int := -9223372036854775808

/-- Go `math.MaxInt64`, the largest `time.Duration` (in nanoseconds). -/
def maxDuration : Int := 9223372036854775807

/-- Embedding of `time.Time.Sub` applied to an already computed exact
difference: per the Go documentation, a difference exceeding the range of
`time.Duration` is clamped to the maximum (or minimum) duration. -/
def satDuration (d : Int) : Int :=
  if d < minDuration then minDuration
  else if d > maxDuration then maxDuration
  else d

/-- Embedding of `util.GetTimeIntersection` (util.go): instants are integer
nanosecond timestamps, `Before`/`After` are the strict orders, and the final
`endMin.Sub(startMax)` clamps via `satDuration`. -/
def GetTimeIntersection (start1 end1 start2 end2 : Int) : Int :=
  let endMin := if end2 < end1 then end2 else end1
  let startMax := if start2 > start1 then start2 else start1
  satDuration (endMin - startMax)

/-- Embedding of the struct `Credentials` together with the mutable client
state: `doRequest` reads and writes `secret.AccessToken`. -/
structure Client where
  ClientId : String
  ClientSecret : String
  AccessToken : String

/-- The parts of an HTTP response that `doRequest` inspects: the
`authorization` response header (empty string when absent) and the status
code.  The body is irrelevant to the token-rotation logic. -/
structure HttpResponse where
  authorization : String
  statusCode : Nat

/-- The environment of one `doRequest` invocation: the outcome of the
authentication exchange (used only when the token slot is empty) and the
outcome of the single HTTP round trip of this request. -/
structure CallEnv where
  authOutcome : Except Unit String
  httpOutcome : Except Unit HttpResponse

/-- Observable trace of one `doRequest` invocation: the `Authorization`
header attached to the outgoing request (if any) and whether the
credential exchange (`Authenticate`) ran. -/
structure CallTrace where
  sentAuthorization : Option String
  didAuthenticate : Bool

/-- Error outcomes of `doRequest`. -/
inductive ReqError where
  | authFailed
  | transportFailed
  | status (code : Nat)

/-- Replace the first occurrence of `pat` in a character list by `rep`,
leaving the list unchanged when `pat` (assumed nonempty) does not occur:
the semantics of Go `strings.Replace(s, pat, rep, 1)`. -/
def listReplaceFirst (pat rep : List Char) : List Char → List Char
  | [] => []
  | c :: cs =>
    if pat.isPrefixOf (c :: cs) then rep ++ (c :: cs).drop pat.length
    else c :: listReplaceFirst pat rep cs

/-- String version of `listReplaceFirst`. -/
def replaceFirst (s pat rep : String) : String :=
  String.mk (listReplaceFirst pat.data rep.data s.data)

/-- Embedding of `Client.doRequest` with `useAuthentication = true`
(personio.go): authenticate when the token slot is empty, attach and
consume the held token, run the HTTP exchange, then cycle or reset the
token from the `authorization` response header before the status check.
Returns the call trace, the client state after the call, and the outcome. -/
def doRequest (c0 : Client) (env : CallEnv) : CallTrace × Client × Except ReqError Nat :=
  match (if c0.AccessToken = "" then env.authOutcome.map (fun t => { c0 with AccessToken := t })
         else Except.ok c0 : Except Unit Client) with
  | Except.error _ =>
    (⟨none, decide (c0.AccessToken = "")⟩, c0, Except.error ReqError.authFailed)
  | Except.ok c1 =>
    let didAuth := decide (c0.AccessToken = "")
    let sent : Option String :=
      if c1.AccessToken = "" then none else some ("Bearer " ++ c1.AccessToken)
    let c2 : Client :=
      if c1.AccessToken = "" then c1 else { c1 with AccessToken := "" }
    match env.httpOutcome with
    | Except.error _ => (⟨sent, didAuth⟩, c2, Except.error ReqError.transportFailed)
    | Except.ok resp =>
      let next := replaceFirst resp.authorization "Bearer " ""
      let c3 : Client := if next = "" then c2 else { c2 with AccessToken := next }
      if resp.statusCode < 200 ∨ 300 ≤ resp.statusCode then
        (⟨sent, didAuth⟩, c3, Except.error (ReqError.status resp.statusCode))
      else
        (⟨sent, didAuth⟩, c3, Except.ok resp.statusCode)

/-- Embedding of the anonymous `time_off_type` struct inside `TimeOff`. -/
structure TimeOffType where
  Type' : String
  Id : Int
  Name : String
  Category : String

/-- Embedding of the struct `Employee`: a type tag plus an embedded
`AttributeContainer`. -/
structure Employee where
  Type' : String
  container : AttributeContainer

/-- Embedding of the struct `TimeOff` (personio.go).  Instants are integer
nanosecond timestamps and the fractional day count is a rational (Go
`float64`); the anonymous `certificate` struct is flattened into its only
field. -/
structure TimeOff where
  Id : Int
  Status : String
  StartDate : Int
  EndDate : Int
  DaysCount : ℚ
  HalfDayStart : Bool
  HalfDayEnd : Bool
  TimeOffType : TimeOffType
  Employee : Employee
  CreatedBy : String
  CertificateStatus : String
  CreatedAt : Int
  UpdatedAt : Int

/-- Embedding of the struct `timeOffContainer`: one `data` element of the
`/company/time-offs` response. -/
structure timeOffContainer where
  Type' : String
  Attributes : TimeOff

/-- Embedding of the constant `timeOffsMaxLimit`. -/
def timeOffsMaxLimit : Int := 200

/-- A calendar date, the information `Format(QUERY_DATE_FORMAT)` renders. -/
structure QDate where
  year : Nat
  month : Nat
  day : Nat

/-- Left-pad a decimal rendering with zeros to the given width. -/
def zeroPad (w : Nat) (s : String) : String :=
  if s.length < w then String.mk (List.replicate (w - s.length) '0') ++ s else s

/-- Embedding of `t.Format(QUERY_DATE_FORMAT)` with layout `2006-01-02`:
zero-padded four-digit year, two-digit month and two-digit day. -/
def formatQueryDate (d : QDate) : String :=
  zeroPad 4 (toString d.year) ++ "-" ++ zeroPad 2 (toString d.month) ++ "-" ++ zeroPad 2 (toString d.day)

/-- The query parameters of one `/company/time-offs` transport call:
`start_date`/`end_date` (absent exactly when the corresponding argument is
`nil`) and the numeric `limit` and `offset` values (rendered in decimal by
`strconv.Itoa` in the Go code). -/
structure TimeOffQuery where
  start_date : Option String
  end_date : Option String
  limit : Int
  offset : Int

/-- Errors of one page request, the failure modes of `doRequestJson` plus
the `json.Unmarshal` of the page: transport failure, non-2xx status,
`success:false` envelope, or JSON decode failure. -/
inductive PageError where
  | transport
  | status (code : Nat)
  | envelope (code : Int) (message : String)
  | decode

/-- An upstream for the paginator: the decoded page (or error) the
transport produces for a given query. -/
def Upstream : Type := TimeOffQuery → Except PageError (List timeOffContainer)

/-- Embedding of the `stepLimit` computation of `Client.GetTimeOffs`
(personio.go:475-478): the remaining caller limit, capped at
`timeOffsMaxLimit`. -/
def stepSize (remaining : Int) : Int :=
  if remaining > timeOffsMaxLimit then timeOffsMaxLimit else remaining

/-- Embedding of the pagination loop of `Client.GetTimeOffs`
(personio.go:460-503), instrumented with the list of issued queries.
State variables `count` and `results` are the loop-carried Go variables;
`sq`/`eq'` are the formatted date parameters (computed identically on every
iteration in the Go code).  Returns the queries issued from this state on,
and either the first page error or the final `(count, results)`. -/
def fetchLoop (u : Upstream) (sq eq' : Option String) (offset limit : Int)
    (count : Int) (results : List (List timeOffContainer)) :
    List TimeOffQuery × Except PageError (Int × List (List timeOffContainer)) :=
  if h : count < limit then
    let q : TimeOffQuery := ⟨sq, eq', stepSize (limit - count), offset + count⟩
    match u q with
    | Except.error e => ([q], Except.error e)
    | Except.ok page =>
      let results' := if (page.length : Int) > 0 then results ++ [page] else results
      let count' := if (page.length : Int) > 0 then count + (page.length : Int) else count
      if h2 : (page.length : Int) < stepSize (limit - count) then
        ([q], Except.ok (count', results'))
      else
        match fetchLoop u sq eq' offset limit count' results' with
        | (qs, r) => (q :: qs, r)
  else ([], Except.ok (count, results))
termination_by (limit - count).toNat
decreasing_by
  simp only [not_lt, stepSize, timeOffsMaxLimit] at h2
  split <;> split at h2 <;> omega

/-- Embedding of the inner write `timeOffs[(i*timeOffsMaxLimit)+j] =
&results[i].Data[j].Attributes`: writes the records of one page
sequentially starting at index `base` of the record array.  A cell that is
never written stays `none` (a `nil` pointer in Go). -/
def writePage (arr : List (Option TimeOff)) (base : Nat) : List timeOffContainer → List (Option TimeOff)
  | [] => arr
  | c :: cs => writePage (arr.set base (some c.Attributes)) (base + 1) cs

/-- Embedding of the flattening loop of `Client.GetTimeOffs`
(personio.go:506-511): page `i` is written starting at index
`i * timeOffsMaxLimit`. -/
def unpackTimeOffs (arr : List (Option TimeOff)) (i : Nat) : List (List timeOffContainer) → List (Option TimeOff)
  | [] => arr
  | p :: ps => unpackTimeOffs (writePage arr (i * 200) p) (i + 1) ps

/-- Embedding of `Client.GetTimeOffs`: run the pagination loop from
`count = 0` with empty `results`, then flatten into an array of `count`
record slots (`make([]*TimeOff, count)` holds `nil` pointers, i.e. `none`).
The issued queries are returned alongside for specification purposes. -/
def GetTimeOffs (u : Upstream) (start end' : Option QDate) (offset limit : Int) :
    List TimeOffQuery × Except PageError (List (Option TimeOff)) :=
  match fetchLoop u (start.map formatQueryDate) (end'.map formatQueryDate) offset limit 0 [] with
  | (qs, Except.error e) => (qs, Except.error e)
  | (qs, Except.ok (count, results)) =>
    (qs, Except.ok (unpackTimeOffs (List.replicate count.toNat none) 0 results))

/-- A benign upstream: every successfully returned page contains at most
the number of records the query requested (every query the paginator
actually issues has a positive `limit`). -/
def Benign (u : Upstream) : Prop :=
  ∀ q page, u q = Except.ok page → 0 < q.limit → (page.length : Int) ≤ q.limit

/-- The page length an upstream answers for a query (0 on error). -/
def okLen (u : Upstream) (q : TimeOffQuery) : Nat :=
  match u q with
  | Except.ok page => page.length
  | Except.error _ => 0

/-- Number of records received on the first `j` queries of a trace. -/
def prefLen (u : Upstream) (qs : List TimeOffQuery) (j : Nat) : Nat :=
  ((qs.take j).map (okLen u)).sum

/-- The pages an upstream answers along a trace (empty page on error). -/
def receivedPages (u : Upstream) (qs : List TimeOffQuery) : List (List timeOffContainer) :=
  qs.map (fun q =>
    match u q with
    | Except.ok page => page
    | Except.error _ => [])

/-- Total number of records in a list of pages. -/
def totalLen (ps : List (List timeOffContainer)) : Nat :=
  (ps.map List.length).sum

/-- An upstream whose dataset is empty: every page request succeeds with
zero records. -/
def emptyUpstream : Upstream := fun _ => Except.ok []

/-- An upstream whose every page request fails with a transport error. -/
def errUpstream : Upstream := fun _ => Except.error PageError.transport

/-- A sample record, used to exercise the paginator on nonempty pages. -/
def sampleTimeOff : TimeOff :=
  ⟨42, "approved", 0, 0, 1, false, false, ⟨"TimeOffType", 1, "Vacation", "paid_vacation"⟩,
    ⟨"Employee", ⟨[]⟩⟩, "api", "not-required", 0, 0⟩

/-- A sample `data` element of a time-offs page. -/
def sampleContainer : timeOffContainer := ⟨"TimeOffPeriod", sampleTimeOff⟩

/-- An upstream whose every page holds exactly one record. -/
def oneRecordUpstream : Upstream := fun _ => Except.ok [sampleContainer]

theorem satDuration_neg (d : Int) : satDuration d < 0 ↔ d < 0 := by
  unfold satDuration minDuration maxDuration
  split
  · omega
  · split <;> omega

theorem stepSize_eq_min (r : Int) : stepSize r = min r timeOffsMaxLimit := by
  unfold stepSize timeOffsMaxLimit
  split <;> omega

/-- C10 counterexample: for ranges 2^63 nanoseconds long, `GetTimeIntersection`
returns the saturated maximum duration (Go `time.Time.Sub` clamps the int64
duration), not the exact value `min end1 end2 - max start1 start2`. -/
theorem getTimeIntersection_saturation_counterexample :
    GetTimeIntersection 0 9223372036854775808 0 9223372036854775808 = 9223372036854775807 ∧
    GetTimeIntersection 0 9223372036854775808 0 9223372036854775808 ≠
      min (9223372036854775808 : Int) 9223372036854775808 - max (0 : Int) 0 := by
  constructor
  · unfold GetTimeIntersection satDuration minDuration maxDuration
    norm_num
  · unfold GetTimeIntersection satDuration minDuration maxDuration
    norm_num

/-- C10 (amended): `GetTimeIntersection(start1, end1, start2, end2)` equals
`min(end1, end2) - max(start1, start2)` clamped to the int64 duration range
(Go `time.Time.Sub` saturates on overflow); it is unchanged when the two
ranges are swapped, and it is negative exactly when the closed ranges are
disjoint. -/
theorem getTimeIntersection_spec :
    ∀ s1 e1 s2 e2 : Int,
      GetTimeIntersection s1 e1 s2 e2 = satDuration (min e1 e2 - max s1 s2) ∧
      GetTimeIntersection s1 e1 s2 e2 = GetTimeIntersection s2 e2 s1 e1 ∧
      (GetTimeIntersection s1 e1 s2 e2 < 0 ↔
        ¬ ∃ t : Int, s1 ≤ t ∧ t ≤ e1 ∧ s2 ≤ t ∧ t ≤ e2) := by
  intro s1 e1 s2 e2
  have hmin : ∀ a b : Int, (if b < a then b else a) = min a b := by
    intro a b; split <;> omega
  have hmax : ∀ a b : Int, (if b > a then b else a) = max a b := by
    intro a b; split <;> omega
  have h1 : GetTimeIntersection s1 e1 s2 e2 = satDuration (min e1 e2 - max s1 s2) := by
    unfold GetTimeIntersection
    rw [hmin, hmax]
  have h2 : GetTimeIntersection s2 e2 s1 e1 = satDuration (min e2 e1 - max s2 s1) := by
    unfold GetTimeIntersection
    rw [hmin, hmax]
  refine ⟨h1, ?_, ?_⟩
  · rw [h1, h2, min_comm, max_comm]
  · rw [h1, satDuration_neg]
    constructor
    · rintro hlt ⟨t, ht1, ht2, ht3, ht4⟩
      have hta : t ≤ min e1 e2 := le_min ht2 ht4
      have htb : max s1 s2 ≤ t := max_le ht1 ht3
      omega
    · intro hdisj
      by_contra hge
      push_neg at hge
      have hm1 : min e1 e2 ≤ e1 := min_le_left e1 e2
      have hm2 : min e1 e2 ≤ e2 := min_le_right e1 e2
      exact hdisj ⟨max s1 s2, le_max_left _ _, by omega, le_max_right _ _, by omega⟩

/-- C8: for every upstream, start/end date and offset, `GetTimeOffs` with
`limit = 0` issues zero transport calls and returns the empty sequence. -/
theorem getTimeOffs_limit_zero :
    ∀ (u : Upstream) (start end' : Option QDate) (offset : Int),
      GetTimeOffs u start end' offset 0 = ([], Except.ok []) := by
  intro u start end' offset
  unfold GetTimeOffs
  rw [fetchLoop]
  simp [unpackTimeOffs]

/-- C5: every typed extraction yields no value (never an error) when the
declared type tag does not gate it or the raw value's runtime shape does
not match; indexing an absent key yields the zero-value attribute, all of
whose extractions yield no value. -/
theorem attribute_extraction_permissive :
    (∀ a : Attribute,
      (¬ (a.Type' = "integer" ∧ isNumVal a.Value = true) → a.GetIntValue = none) ∧
      (¬ ((a.Type' = "integer" ∨ a.Type' = "decimal") ∧ isNumVal a.Value = true) →
        a.GetFloatValue = none) ∧
      (¬ ((a.Type' = "standard" ∨ a.Type' = "multiline") ∧ isStrVal a.Value = true) →
        a.GetStringValue = none) ∧
      (¬ (a.Type' = "list" ∧ isStrVal a.Value = true) → a.GetListValue = none) ∧
      (∀ parse, ¬ (a.Type' = "date" ∧ isTimeShapeVal a.Value = true) →
        a.GetTimeValue parse = none) ∧
      (¬ (a.Type' = "standard" ∧ isObjVal a.Value = true) → a.GetMapValue = [])) ∧
    (∀ (ac : AttributeContainer) (key : String) (parse : String → Option Int),
      ac.Attributes.lookup key = none →
      ac.attrAt key = zeroAttribute ∧
      ac.GetIntAttribute key = none ∧ ac.GetFloatAttribute key = none ∧
      ac.GetStringAttribute key = none ∧ ac.GetListAttribute key = none ∧
      ac.GetTimeAttribute parse key = none ∧ ac.GetMapAttribute key = []) := by
  have hzero : ∀ key : String, (zeroAttribute.Type' = key) = ("" = key) := by
    intro key; rfl
  constructor
  · intro a
    refine ⟨?_, ?_, ?_, ?_, ?_, ?_⟩
    · intro h
      unfold Attribute.GetIntValue
      split
      · rcases hv : a.Value with _ | v
        · simp [hv]
        · cases v <;> simp_all [isNumVal]
      · rfl
    · intro h
      unfold Attribute.GetFloatValue
      split
      · rcases hv : a.Value with _ | v
        · simp [hv]
        · cases v <;> simp_all [isNumVal]
      · rfl
    · intro h
      unfold Attribute.GetStringValue
      split
      · rcases hv : a.Value with _ | v
        · simp [hv]
        · cases v <;> simp_all [isStrVal]
      · rfl
    · intro h
      unfold Attribute.GetListValue
      split
      · rcases hv : a.Value with _ | v
        · simp [hv]
        · cases v <;> simp_all [isStrVal]
      · rfl
    · intro parse h
      unfold Attribute.GetTimeValue
      split
      · rcases hv : a.Value with _ | v
        · simp [hv]
        · cases v <;> simp_all [isTimeShapeVal]
      · rfl
    · intro h
      unfold Attribute.GetMapValue
      split
      · rcases hv : a.Value with _ | v
        · simp [hv]
        · cases v <;> simp_all [isObjVal]
      · rfl
  · intro ac key parse hlook
    have hat : ac.attrAt key = zeroAttribute := by
      unfold AttributeContainer.attrAt
      rw [hlook]
      rfl
    refine ⟨hat, ?_, ?_, ?_, ?_, ?_, ?_⟩ <;>
      simp [AttributeContainer.GetIntAttribute, AttributeContainer.GetFloatAttribute,
        AttributeContainer.GetStringAttribute, AttributeContainer.GetListAttribute,
        AttributeContainer.GetTimeAttribute, AttributeContainer.GetMapAttribute, hat,
        zeroAttribute, Attribute.GetIntValue, Attribute.GetFloatValue,
        Attribute.GetStringValue, Attribute.GetListValue, Attribute.GetTimeValue,
        Attribute.GetMapValue]

/-- C5 witness: a concrete type-mismatched attribute decodes to no value,
and a lookup at an absent key decodes to no value. -/
theorem attribute_extraction_permissive_app :
    Attribute.GetIntValue ⟨"f", some (JsonValue.str "x"), "integer", ""⟩ = none ∧
    AttributeContainer.GetStringAttribute ⟨[]⟩ "absent" = none ∧
    AttributeContainer.GetMapAttribute ⟨[]⟩ "absent" = [] := by
  refine ⟨(attribute_extraction_permissive.1 _).1 (by decide), ?_, ?_⟩
  · exact ((attribute_extraction_permissive.2 ⟨[]⟩ "absent" (fun _ => none) rfl).2.2.2.1)
  · exact ((attribute_extraction_permissive.2 ⟨[]⟩ "absent" (fun _ => none) rfl).2.2.2.2.2.2)

theorem splitCommaSegments_ne_nil (cs : List Char) : splitCommaSegments cs ≠ [] := by
  induction cs with
  | nil => simp [splitCommaSegments]
  | cons c cs ih =>
    unfold splitCommaSegments
    split
    · simp
    · match h : splitCommaSegments cs with
      | [] => simp
      | seg :: segs => simp

theorem splitCommaSegments_no_comma (cs : List Char) :
    ∀ seg ∈ splitCommaSegments cs, ∀ c ∈ seg, ¬ c = ',' := by
  induction cs with
  | nil =>
    intro seg hseg c hc
    simp [splitCommaSegments] at hseg
    subst hseg
    simp at hc
  | cons c0 cs ih =>
    intro seg hseg c hc
    unfold splitCommaSegments at hseg
    by_cases h0 : c0 = ','
    · rw [if_pos h0] at hseg
      rcases List.mem_cons.mp hseg with h | h
      · subst h; simp at hc
      · exact ih seg h c hc
    · rw [if_neg h0] at hseg
      match hsp : splitCommaSegments cs with
      | [] => exact absurd hsp (splitCommaSegments_ne_nil cs)
      | seg0 :: segs =>
        rw [hsp] at hseg
        rcases List.mem_cons.mp hseg with h | h
        · subst h
          rcases List.mem_cons.mp hc with h | h
          · subst h; exact h0
          · exact ih seg0 (by rw [hsp]; exact List.mem_cons_self _ _) c h
        · exact ih seg (by rw [hsp]; exact List.mem_cons_of_mem _ h) c hc

theorem splitCommaSegments_join (cs : List Char) :
    (splitCommaSegments cs).flatten = cs.filter (fun c => ¬ c = ',') := by
  induction cs with
  | nil => simp [splitCommaSegments]
  | cons c0 cs ih =>
    unfold splitCommaSegments
    by_cases h0 : c0 = ','
    · rw [if_pos h0]
      simp [List.filter_cons, h0, ih]
    · rw [if_neg h0]
      match hsp : splitCommaSegments cs with
      | [] => exact absurd hsp (splitCommaSegments_ne_nil cs)
      | seg0 :: segs =>
        rw [hsp] at ih
        simp only [List.flatten_cons] at ih
        simp [List.filter_cons, h0, List.flatten_cons, ih]

theorem join_filter_ne_nil (l : List (List Char)) :
    (l.filter (fun seg => ¬ seg = [])).flatten = l.flatten := by
  induction l with
  | nil => simp
  | cons seg segs ih =>
    simp only [decide_not] at ih ⊢
    by_cases h : seg = []
    · subst h; simpa [List.filter_cons] using ih
    · simp [List.filter_cons, h, ih]

/-- C6 counterexample: under tag `list`, the raw value `"a, b"` splits into
`["a", " b"]` — the tokens keep their whitespace, they are not trimmed as
the claim states. -/
theorem getListValue_no_trim_counterexample :
    Attribute.GetListValue ⟨"", some (JsonValue.str "a, b"), "list", ""⟩ = some ["a", " b"] ∧
    Attribute.GetListValue ⟨"", some (JsonValue.str "a, b"), "list", ""⟩ ≠ some ["a", "b"] := by
  constructor <;> decide

/-- C6 (amended): for tag `list` and a string raw value, list extraction
splits the string on commas into the ordered sequence of delimited
substrings taken verbatim (no whitespace trimming), dropping the empty
tokens produced by consecutive delimiters: every token is nonempty and
comma-free, and the tokens concatenate to the input minus its commas; in
particular `"a,b,,c"` yields `["a","b","c"]`. -/
theorem getListValue_split_fields :
    (∀ (a : Attribute) (s : String), a.Type' = "list" → a.Value = some (JsonValue.str s) →
      ∃ ts, a.GetListValue = some ts ∧
        (∀ t ∈ ts, ¬ t = "" ∧ ∀ c ∈ t.data, ¬ c = ',') ∧
        (ts.map String.data).flatten = s.data.filter (fun c => ¬ c = ',')) ∧
    Attribute.GetListValue ⟨"", some (JsonValue.str "a,b,,c"), "list", ""⟩ =
      some ["a", "b", "c"] := by
  constructor
  · intro a s htag hval
    refine ⟨fieldsFuncComma s, ?_, ?_, ?_⟩
    · unfold Attribute.GetListValue
      rw [if_pos htag, hval]
    · intro t ht
      unfold fieldsFuncComma at ht
      rcases List.mem_map.mp ht with ⟨seg, hseg, hmk⟩
      have hseg' := List.mem_filter.mp hseg
      constructor
      · intro hempty
        subst hmk
        have : seg = [] := congrArg String.data hempty
        simp [this] at hseg'
      · intro c hc
        subst hmk
        exact splitCommaSegments_no_comma s.data seg hseg'.1 c hc
    · unfold fieldsFuncComma
      have hdata : (((splitCommaSegments s.data).filter (fun seg => ¬ seg = [])).map
          (fun seg => String.mk seg)).map String.data =
          (splitCommaSegments s.data).filter (fun seg => ¬ seg = []) := by
        rw [List.map_map]
        exact List.map_id _
      rw [hdata, join_filter_ne_nil, splitCommaSegments_join]
  · decide

/-- C6 witness: the amended splitting property applied to the concrete raw
value `"x,,y"`. -/
theorem getListValue_split_fields_app :
    ∃ ts, Attribute.GetListValue ⟨"", some (JsonValue.str "x,,y"), "list", ""⟩ = some ts ∧
      (∀ t ∈ ts, ¬ t = "" ∧ ∀ c ∈ t.data, ¬ c = ',') ∧
      (ts.map String.data).flatten = "x,,y".data.filter (fun c => ¬ c = ',') :=
  getListValue_split_fields.1 ⟨"", some (JsonValue.str "x,,y"), "list", ""⟩ "x,,y" rfl rfl

theorem doRequest_with_token (c : Client) (env : CallEnv) (h : ¬ c.AccessToken = "") :
    (doRequest c env).1 = ⟨some ("Bearer " ++ c.AccessToken), false⟩ := by
  unfold doRequest
  rw [if_neg h]
  cases henv : env.httpOutcome with
  | error e => simp [h]
  | ok resp =>
    by_cases hst : resp.statusCode < 200 ∨ 300 ≤ resp.statusCode <;> simp [h, hst]

theorem doRequest_reauth (c : Client) (env : CallEnv) (tok2 : String)
    (h : c.AccessToken = "") (ha : env.authOutcome = Except.ok tok2) :
    (doRequest c env).1 = ⟨if tok2 = "" then none else some ("Bearer " ++ tok2), true⟩ := by
  unfold doRequest
  rw [if_pos h, ha]
  cases henv : env.httpOutcome with
  | error e =>
    by_cases ht : tok2 = "" <;> simp [Except.map, h, ht]
  | ok resp =>
    by_cases ht : tok2 = "" <;>
      by_cases hst : resp.statusCode < 200 ∨ 300 ≤ resp.statusCode <;>
        simp [Except.map, h, ht, hst]

theorem doRequest_next_state (c : Client) (env : CallEnv) (resp : HttpResponse)
    (hhttp : env.httpOutcome = Except.ok resp)
    (hsent : (doRequest c env).1.sentAuthorization ≠ none) :
    (doRequest c env).2.1.AccessToken =
      (if replaceFirst resp.authorization "Bearer " "" = "" then ""
       else replaceFirst resp.authorization "Bearer " "") := by
  unfold doRequest at hsent ⊢
  by_cases h0 : c.AccessToken = ""
  · rw [if_pos h0] at hsent ⊢
    cases hao : env.authOutcome with
    | error e =>
      rw [hao] at hsent
      simp [Except.map] at hsent
    | ok t =>
      rw [hao] at hsent
      by_cases ht : t = ""
      · rw [hhttp] at hsent
        by_cases hst : resp.statusCode < 200 ∨ 300 ≤ resp.statusCode <;>
          simp [Except.map, ht, hst] at hsent
      · rw [hhttp]
        by_cases hrot : replaceFirst resp.authorization "Bearer " "" = "" <;>
          by_cases hst : resp.statusCode < 200 ∨ 300 ≤ resp.statusCode <;>
            simp [Except.map, ht, hrot, hst]
  · rw [if_neg h0] at hsent ⊢
    rw [hhttp]
    by_cases hrot : replaceFirst resp.authorization "Bearer " "" = "" <;>
      by_cases hst : resp.statusCode < 200 ∨ 300 ≤ resp.statusCode <;>
        simp [h0, hrot, hst]

/-- C9: the held token is consumed when attached; if the first response
carries a rotation header (a nonempty `authorization` value after stripping
the `Bearer ` marker), the second authenticated call sends the rotated
token without re-authenticating; if it carries none, the token slot is
empty afterwards and the second call re-authenticates with the stored
client credentials and sends the freshly obtained token. -/
theorem doRequest_token_rotation :
    ∀ (c0 : Client) (env1 env2 : CallEnv) (resp : HttpResponse) (tok : String),
      env1.httpOutcome = Except.ok resp →
      (doRequest c0 env1).1.sentAuthorization = some tok →
      ((replaceFirst resp.authorization "Bearer " "" ≠ "" →
        (doRequest c0 env1).2.1.AccessToken = replaceFirst resp.authorization "Bearer " "" ∧
        (doRequest (doRequest c0 env1).2.1 env2).1.didAuthenticate = false ∧
        (doRequest (doRequest c0 env1).2.1 env2).1.sentAuthorization =
          some ("Bearer " ++ replaceFirst resp.authorization "Bearer " "")) ∧
       (replaceFirst resp.authorization "Bearer " "" = "" →
        (doRequest c0 env1).2.1.AccessToken = "" ∧
        ∀ tok2, env2.authOutcome = Except.ok tok2 →
          (doRequest (doRequest c0 env1).2.1 env2).1.didAuthenticate = true ∧
          (tok2 ≠ "" →
            (doRequest (doRequest c0 env1).2.1 env2).1.sentAuthorization =
              some ("Bearer " ++ tok2)))) := by
  intro c0 env1 env2 resp tok hhttp hsent
  have hnn : (doRequest c0 env1).1.sentAuthorization ≠ none := by
    rw [hsent]; exact Option.some_ne_none tok
  have hstate := doRequest_next_state c0 env1 resp hhttp hnn
  constructor
  · intro hrot
    rw [if_neg hrot] at hstate
    refine ⟨hstate, ?_, ?_⟩
    · rw [doRequest_with_token _ env2 (by rw [hstate]; exact hrot)]
    · rw [doRequest_with_token _ env2 (by rw [hstate]; exact hrot), hstate]
  · intro hrot
    rw [if_pos hrot] at hstate
    refine ⟨hstate, ?_⟩
    intro tok2 ha2
    constructor
    · rw [doRequest_reauth _ env2 tok2 hstate ha2]
    · intro ht2
      rw [doRequest_reauth _ env2 tok2 hstate ha2]
      simp [ht2]

/-- C9 witness: with a held token `t1` and a first response carrying
rotation header `Bearer t2`, the second call sends the rotated token; with
a first response carrying no rotation header, the second call
re-authenticates and sends the token the credential exchange returned. -/
theorem doRequest_token_rotation_app :
    (doRequest (doRequest ⟨"id", "sec", "t1"⟩ ⟨Except.error (), Except.ok ⟨"Bearer t2", 200⟩⟩).2.1
        ⟨Except.ok "t3", Except.ok ⟨"", 200⟩⟩).1.sentAuthorization =
      some ("Bearer " ++ replaceFirst "Bearer t2" "Bearer " "") ∧
    (doRequest (doRequest ⟨"id", "sec", "t1"⟩ ⟨Except.error (), Except.ok ⟨"", 200⟩⟩).2.1
        ⟨Except.ok "t3", Except.ok ⟨"", 200⟩⟩).1.didAuthenticate = true ∧
    (doRequest (doRequest ⟨"id", "sec", "t1"⟩ ⟨Except.error (), Except.ok ⟨"", 200⟩⟩).2.1
        ⟨Except.ok "t3", Except.ok ⟨"", 200⟩⟩).1.sentAuthorization = some ("Bearer " ++ "t3") := by
  refine ⟨?_, ?_, ?_⟩
  · exact ((doRequest_token_rotation ⟨"id", "sec", "t1"⟩
      ⟨Except.error (), Except.ok ⟨"Bearer t2", 200⟩⟩ ⟨Except.ok "t3", Except.ok ⟨"", 200⟩⟩
      ⟨"Bearer t2", 200⟩ "Bearer t1" rfl (by decide)).1 (by decide)).2.2
  · exact (((doRequest_token_rotation ⟨"id", "sec", "t1"⟩
      ⟨Except.error (), Except.ok ⟨"", 200⟩⟩ ⟨Except.ok "t3", Except.ok ⟨"", 200⟩⟩
      ⟨"", 200⟩ "Bearer t1" rfl (by decide)).2 (by decide)).2 "t3" rfl).1
  · exact ((((doRequest_token_rotation ⟨"id", "sec", "t1"⟩
      ⟨Except.error (), Except.ok ⟨"", 200⟩⟩ ⟨Except.ok "t3", Except.ok ⟨"", 200⟩⟩
      ⟨"", 200⟩ "Bearer t1" rfl (by decide)).2 (by decide)).2 "t3" rfl).2 (by decide))

theorem prefLen_zero (u : Upstream) (qs : List TimeOffQuery) : prefLen u qs 0 = 0 := rfl

theorem prefLen_cons (u : Upstream) (q : TimeOffQuery) (qs : List TimeOffQuery) (j : Nat) :
    prefLen u (q :: qs) (j + 1) = okLen u q + prefLen u qs j := by
  simp [prefLen, List.take_succ_cons]

theorem receivedPages_cons (u : Upstream) (q : TimeOffQuery) (qs : List TimeOffQuery)
    (page : List timeOffContainer) (h : u q = Except.ok page) :
    receivedPages u (q :: qs) = page :: receivedPages u qs := by
  simp [receivedPages, h]

theorem totalLen_nil : totalLen [] = 0 := rfl

theorem totalLen_cons (p : List timeOffContainer) (ps : List (List timeOffContainer)) :
    totalLen (p :: ps) = p.length + totalLen ps := by
  simp [totalLen]

theorem stepSize_pos (r : Int) (h : 0 < r) : 0 < stepSize r := by
  unfold stepSize timeOffsMaxLimit
  split <;> omega

theorem stepSize_le (r : Int) : stepSize r ≤ r ∨ (stepSize r = 200 ∧ 200 < r) := by
  unfold stepSize timeOffsMaxLimit
  split
  · right; omega
  · left; omega

set_option maxHeartbeats 1000000 in
theorem fetchLoop_trace (u : Upstream) (sq eq' : Option String) (offset limit : Int) :
    ∀ (count : Int) (results : List (List timeOffContainer)),
    ∀ qs r, fetchLoop u sq eq' offset limit count results = (qs, r) →
      ((∀ j (hj : j < qs.length),
          qs.get ⟨j, hj⟩ =
            ⟨sq, eq', stepSize (limit - (count + (prefLen u qs j : Int))),
              offset + (count + (prefLen u qs j : Int))⟩ ∧
          count + (prefLen u qs j : Int) < limit) ∧
       (∀ q ∈ qs.dropLast, ∃ page, u q = Except.ok page ∧
          q.limit ≤ (page.length : Int) ∧ page ≠ []) ∧
       (∀ e, r = Except.error e → ∃ q, qs.getLast? = some q ∧ u q = Except.error e) ∧
       (∀ q e, qs.getLast? = some q → u q = Except.error e → r = Except.error e) ∧
       (∀ count' results', r = Except.ok (count', results') →
          ∃ ps, results' = results ++ ps ∧ count' = count + (totalLen ps : Int) ∧
            ps.flatten = (receivedPages u qs).flatten ∧ (∀ p ∈ ps, p ≠ [])) ∧
       ((qs.length : Int) ≤ max (limit - count) 0 + 1)) := by
  intro count results
  induction count, results using fetchLoop.induct u sq eq' offset limit with
  | case1 count results hlt q e he =>
    intro qs r h
    have he2 : u ⟨sq, eq', stepSize (limit - count), offset + count⟩ = Except.error e := he
    rw [fetchLoop, dif_pos hlt] at h
    simp only [he2] at h
    injection h with h1 h2
    subst h1
    subst h2
    refine ⟨?_, ?_, ?_, ?_, ?_, ?_⟩
    · intro j hj
      cases j with
      | zero => exact ⟨by simp [prefLen_zero], by rw [prefLen_zero]; push_cast; omega⟩
      | succ j' => simp at hj
    · intro q' hq
      simp at hq
    · intro e' h3
      injection h3 with h3
      subst h3
      exact ⟨_, by simp, he2⟩
    · intro q' e' hl herr
      simp at hl
      subst hl
      rw [he2] at herr
      injection herr with herr
      subst herr
      rfl
    · intro c' rs' h5
      cases h5
    · have hmr := le_max_right (limit - count) 0
      simp only [List.length_cons, List.length_nil]
      push_cast
      omega
  | case2 count results hlt q page hok hshort =>
    intro qs r h
    have hok2 : u ⟨sq, eq', stepSize (limit - count), offset + count⟩ = Except.ok page := hok
    rw [fetchLoop, dif_pos hlt] at h
    simp only [hok2] at h
    rw [dif_pos hshort] at h
    injection h with h1 h2
    subst h1
    subst h2
    refine ⟨?_, ?_, ?_, ?_, ?_, ?_⟩
    · intro j hj
      cases j with
      | zero => exact ⟨by simp [prefLen_zero], by rw [prefLen_zero]; push_cast; omega⟩
      | succ j' => simp at hj
    · intro q' hq
      simp at hq
    · intro e h3
      cases h3
    · intro q' e hl herr
      simp at hl
      subst hl
      rw [hok2] at herr
      cases herr
    · intro c' rs' h5
      injection h5 with h5
      injection h5 with h5a h5b
      by_cases hpos : (page.length : Int) > 0
      · refine ⟨[page], ?_, ?_, ?_, ?_⟩
        · rw [← h5b, if_pos hpos]
        · rw [← h5a, if_pos hpos, totalLen_cons, totalLen_nil]
          push_cast
          ring
        · rw [receivedPages_cons u _ [] page hok2]
          simp [receivedPages]
        · intro p hp
          simp at hp
          subst hp
          intro hnil
          rw [hnil] at hpos
          simp at hpos
      · refine ⟨[], ?_, ?_, ?_, ?_⟩
        · rw [← h5b, if_neg hpos]
          simp
        · rw [← h5a, if_neg hpos, totalLen_nil]
          simp
        · have hnil : page = [] := by
            have hz : page.length = 0 := by omega
            exact List.length_eq_zero.mp hz
          rw [receivedPages_cons u _ [] page hok2, hnil]
          simp [receivedPages]
        · intro p hp
          simp at hp
    · have hmr := le_max_right (limit - count) 0
      simp only [List.length_cons, List.length_nil]
      push_cast
      omega
  | case3 count results hlt q page hok res' cnt' hlong qs' r' hrec ih =>
    intro qs r h
    have hstep : 0 < stepSize (limit - count) := stepSize_pos _ (by omega)
    have hlen : stepSize (limit - count) ≤ (page.length : Int) := not_lt.mp hlong
    have hpos : (page.length : Int) > 0 := by omega
    have hok2 : u ⟨sq, eq', stepSize (limit - count), offset + count⟩ = Except.ok page := hok
    have hcnt2 : cnt' = count + (page.length : Int) := by
      show (if (page.length : Int) > 0 then count + (page.length : Int) else count) =
        count + (page.length : Int)
      exact if_pos hpos
    have hres2 : res' = results ++ [page] := by
      show (if (page.length : Int) > 0 then results ++ [page] else results) = results ++ [page]
      exact if_pos hpos
    rw [hcnt2, hres2] at hrec ih
    rw [fetchLoop, dif_pos hlt] at h
    simp only [hok2, if_pos hpos] at h
    rw [dif_neg hlong] at h
    rw [hrec] at h
    dsimp only [] at h
    injection h with h1 h2
    subst h1
    subst h2
    obtain ⟨IH1, IH2, IH3, IH4, IH5, IH6⟩ := ih qs' r' hrec
    have hokLen : okLen u ⟨sq, eq', stepSize (limit - count), offset + count⟩ = page.length := by
      simp [okLen, hok2]
    refine ⟨?_, ?_, ?_, ?_, ?_, ?_⟩
    · intro j hj
      cases j with
      | zero => exact ⟨by simp [prefLen_zero], by rw [prefLen_zero]; push_cast; omega⟩
      | succ j' =>
        have hj' : j' < qs'.length := by simpa using hj
        have harith : count +
            (prefLen u (⟨sq, eq', stepSize (limit - count), offset + count⟩ :: qs') (j' + 1) : Int) =
            (count + (page.length : Int)) + (prefLen u qs' j' : Int) := by
          rw [prefLen_cons, hokLen]
          push_cast
          ring
        have hIH := IH1 j' hj'
        exact ⟨by rw [harith]; exact hIH.1, by rw [harith]; exact hIH.2⟩
    · intro q' hq
      rcases hq' : qs' with _ | ⟨q1, qs''⟩
      · subst hq'
        simp at hq
      · subst hq'
        rw [List.dropLast_cons₂] at hq
        rcases List.mem_cons.mp hq with hq | hq
        · subst hq
          exact ⟨page, hok2, hlen, fun hnil => by rw [hnil] at hpos; simp at hpos⟩
        · exact IH2 q' hq
    · intro e hre
      obtain ⟨qlast, hl, herr⟩ := IH3 e hre
      rcases hq' : qs' with _ | ⟨q1, qs''⟩
      · subst hq'
        simp at hl
      · subst hq'
        exact ⟨qlast, by rw [List.getLast?_cons_cons]; exact hl, herr⟩
    · intro q' e hl herr
      rcases hq' : qs' with _ | ⟨q1, qs''⟩
      · subst hq'
        simp at hl
        subst hl
        rw [hok2] at herr
        cases herr
      · subst hq'
        rw [List.getLast?_cons_cons] at hl
        exact IH4 q' e hl herr
    · intro c'' rs'' hr
      obtain ⟨ps', hres, hcnt, hflat, hne⟩ := IH5 c'' rs'' hr
      refine ⟨page :: ps', ?_, ?_, ?_, ?_⟩
      · rw [hres]
        simp
      · rw [hcnt, totalLen_cons]
        push_cast
        ring
      · rw [receivedPages_cons u _ qs' page hok2]
        simp only [List.flatten_cons]
        rw [hflat]
      · intro p hp
        rcases List.mem_cons.mp hp with hp | hp
        · subst hp
          intro hnil
          rw [hnil] at hpos
          simp at hpos
        · exact hne p hp
    · have hml : max (limit - (count + (page.length : Int))) 0 ≤ limit - count - 1 := by
        rcases le_or_lt (limit - (count + (page.length : Int))) 0 with hc | hc
        · rw [max_eq_right hc]
          omega
        · rw [max_eq_left (le_of_lt hc)]
          omega
      rw [max_eq_left (by omega : (0 : Int) ≤ limit - count)]
      simp only [List.length_cons]
      push_cast
      omega
  | case4 count results hnlt =>
    intro qs r h
    rw [fetchLoop, dif_neg hnlt] at h
    injection h with h1 h2
    subst h1
    subst h2
    refine ⟨?_, ?_, ?_, ?_, ?_, ?_⟩
    · intro j hj
      simp at hj
    · intro q hq
      simp at hq
    · intro e h3
      cases h3
    · intro q e hl herr
      simp at hl
    · intro c' rs' h5
      injection h5 with h5
      injection h5 with h5a h5b
      subst h5a
      subst h5b
      exact ⟨[], by simp, by simp [totalLen_nil], by simp [receivedPages], by simp⟩
    · have hmr := le_max_right (limit - count) 0
      simp only [List.length_cons, List.length_nil]
      push_cast
      omega

set_option maxHeartbeats 1000000 in
theorem fetchLoop_benign (u : Upstream) (sq eq' : Option String) (offset limit : Int)
    (hb : Benign u) :
    ∀ (count : Int) (results : List (List timeOffContainer)),
    ∀ qs count' results',
      fetchLoop u sq eq' offset limit count results = (qs, Except.ok (count', results')) →
      ∃ ps, results' = results ++ ps ∧ count' = count + (totalLen ps : Int) ∧
        (ps ≠ [] → count < limit) ∧ (count ≤ limit → count' ≤ limit) ∧
        (ps ≠ [] → count' ≤ limit) ∧
        (∀ p ∈ ps.dropLast, (p.length : Int) = 200) := by
  intro count results
  induction count, results using fetchLoop.induct u sq eq' offset limit with
  | case1 count results hlt q e he =>
    intro qs count' results' h
    have he2 : u ⟨sq, eq', stepSize (limit - count), offset + count⟩ = Except.error e := he
    rw [fetchLoop, dif_pos hlt] at h
    simp only [he2] at h
    injection h with h1 h2
    cases h2
  | case2 count results hlt q page hok hshort =>
    intro qs count' results' h
    have hok2 : u ⟨sq, eq', stepSize (limit - count), offset + count⟩ = Except.ok page := hok
    rw [fetchLoop, dif_pos hlt] at h
    simp only [hok2] at h
    rw [dif_pos hshort] at h
    injection h with h1 h2
    injection h2 with h2
    injection h2 with h2a h2b
    have hq0lim : (0 : Int) < stepSize (limit - count) := stepSize_pos _ (by omega)
    have hben := hb ⟨sq, eq', stepSize (limit - count), offset + count⟩ page hok2 hq0lim
    dsimp only [] at hben
    have hstep_le : stepSize (limit - count) ≤ limit - count := by
      unfold stepSize timeOffsMaxLimit
      split <;> omega
    by_cases hpos : (page.length : Int) > 0
    · refine ⟨[page], by rw [← h2b, if_pos hpos], ?_, fun _ => hlt, ?_, ?_, by simp⟩
      · rw [← h2a, if_pos hpos, totalLen_cons, totalLen_nil]
        push_cast
        ring
      · intro _
        rw [← h2a, if_pos hpos]
        omega
      · intro _
        rw [← h2a, if_pos hpos]
        omega
    · refine ⟨[], by rw [← h2b, if_neg hpos]; simp, ?_, fun hne => absurd rfl hne, ?_,
        fun hne => absurd rfl hne, by simp⟩
      · rw [← h2a, if_neg hpos, totalLen_nil]
        simp
      · intro hcl
        rw [← h2a, if_neg hpos]
        exact hcl
  | case3 count results hlt q page hok res' cnt' hlong qs' r' hrec ih =>
    intro qs count' results' h
    have hstep : 0 < stepSize (limit - count) := stepSize_pos _ (by omega)
    have hlen : stepSize (limit - count) ≤ (page.length : Int) := not_lt.mp hlong
    have hpos : (page.length : Int) > 0 := by omega
    have hok2 : u ⟨sq, eq', stepSize (limit - count), offset + count⟩ = Except.ok page := hok
    have hcnt2 : cnt' = count + (page.length : Int) := by
      show (if (page.length : Int) > 0 then count + (page.length : Int) else count) =
        count + (page.length : Int)
      exact if_pos hpos
    have hres2 : res' = results ++ [page] := by
      show (if (page.length : Int) > 0 then results ++ [page] else results) = results ++ [page]
      exact if_pos hpos
    rw [hcnt2, hres2] at hrec ih
    rw [fetchLoop, dif_pos hlt] at h
    simp only [hok2, if_pos hpos] at h
    rw [dif_neg hlong] at h
    rw [hrec] at h
    dsimp only [] at h
    injection h with h1 h2
    subst h1
    rw [h2] at hrec
    obtain ⟨ps', hres, hcnt, hlt', hcl, hne', h200⟩ := ih qs' count' results' hrec
    have hben := hb ⟨sq, eq', stepSize (limit - count), offset + count⟩ page hok2 hstep
    dsimp only [] at hben
    have hstep_le : stepSize (limit - count) ≤ limit - count := by
      unfold stepSize timeOffsMaxLimit
      split <;> omega
    have hcle : count + (page.length : Int) ≤ limit := by omega
    refine ⟨page :: ps', ?_, ?_, fun _ => hlt, fun _ => hcl hcle, fun _ => hcl hcle, ?_⟩
    · rw [hres]
      simp
    · rw [hcnt, totalLen_cons]
      push_cast
      ring
    · rcases hq' : ps' with _ | ⟨p1, ps''⟩
      · subst hq'
        simp
      · subst hq'
        have hpl2 : (page.length : Int) =
            (if limit - count > timeOffsMaxLimit then timeOffsMaxLimit else limit - count) :=
          le_antisymm hben hlen
        have h200p : (page.length : Int) = 200 := by
          have hlim' := hlt' (List.cons_ne_nil _ _)
          unfold timeOffsMaxLimit at hpl2
          split at hpl2 <;> omega
        rw [List.dropLast_cons₂]
        intro p hp
        rcases List.mem_cons.mp hp with hp | hp
        · subst hp
          exact h200p
        · exact h200 p hp
  | case4 count results hnlt =>
    intro qs count' results' h
    rw [fetchLoop, dif_neg hnlt] at h
    injection h with h1 h2
    injection h2 with h2
    injection h2 with h2a h2b
    subst h2a
    subst h2b
    exact ⟨[], by simp, by simp [totalLen_nil], fun hne => absurd rfl hne, fun hcl => hcl,
      fun hne => absurd rfl hne, by simp⟩

theorem set_append (pre : List (Option TimeOff)) :
    ∀ (rest : List (Option TimeOff)) (k : Nat) (v : Option TimeOff),
      (pre ++ rest).set (pre.length + k) v = pre ++ rest.set k v := by
  induction pre with
  | nil => intro rest k v; simp
  | cons a pre' ih =>
    intro rest k v
    simp only [List.cons_append, List.length_cons]
    have hidx : pre'.length + 1 + k = (pre'.length + k) + 1 := by omega
    rw [hidx]
    show a :: (pre' ++ rest).set (pre'.length + k) v = a :: (pre' ++ rest.set k v)
    rw [ih]

theorem set_append_zero (pre : List (Option TimeOff)) (r0 : Option TimeOff)
    (rest : List (Option TimeOff)) (v : Option TimeOff) :
    (pre ++ r0 :: rest).set pre.length v = pre ++ v :: rest := by
  have h := set_append pre (r0 :: rest) 0 v
  simpa using h

theorem writePage_length (p : List timeOffContainer) :
    ∀ (arr : List (Option TimeOff)) (base : Nat), (writePage arr base p).length = arr.length := by
  induction p with
  | nil => intro arr base; rfl
  | cons c cs ih =>
    intro arr base
    show (writePage (arr.set base (some c.Attributes)) (base + 1) cs).length = arr.length
    rw [ih]
    simp

theorem unpackTimeOffs_length (ps : List (List timeOffContainer)) :
    ∀ (arr : List (Option TimeOff)) (i : Nat), (unpackTimeOffs arr i ps).length = arr.length := by
  induction ps with
  | nil => intro arr i; rfl
  | cons p ps' ih =>
    intro arr i
    show (unpackTimeOffs (writePage arr (i * 200) p) (i + 1) ps').length = arr.length
    rw [ih, writePage_length]

theorem writePage_spec (p : List timeOffContainer) :
    ∀ (pre rest : List (Option TimeOff)), p.length ≤ rest.length →
      writePage (pre ++ rest) pre.length p =
        pre ++ p.map (fun c => some c.Attributes) ++ rest.drop p.length := by
  induction p with
  | nil => intro pre rest h; simp [writePage]
  | cons c cs ih =>
    intro pre rest h
    match rest with
    | [] => simp at h
    | r0 :: rest' =>
      show writePage ((pre ++ r0 :: rest').set pre.length (some c.Attributes))
        (pre.length + 1) cs = _
      rw [set_append_zero]
      have hshape : pre ++ some c.Attributes :: rest' =
          (pre ++ [some c.Attributes]) ++ rest' := by simp
      have hlen : pre.length + 1 = (pre ++ [some c.Attributes]).length := by simp
      rw [hshape, hlen, ih (pre ++ [some c.Attributes]) rest' (by simpa using h)]
      simp

theorem unpackTimeOffs_spec (ps : List (List timeOffContainer)) :
    ∀ (pre : List (Option TimeOff)) (i : Nat),
      pre.length = i * 200 →
      (∀ p ∈ ps.dropLast, p.length = 200) →
      unpackTimeOffs (pre ++ List.replicate (totalLen ps) none) i ps =
        pre ++ ps.flatten.map (fun c => some c.Attributes) := by
  induction ps with
  | nil => intro pre i h1 h2; simp [totalLen_nil, unpackTimeOffs]
  | cons p ps' ih =>
    intro pre i h1 h2
    show unpackTimeOffs (writePage (pre ++ List.replicate (totalLen (p :: ps')) none)
      (i * 200) p) (i + 1) ps' = _
    rw [totalLen_cons, List.replicate_add, ← h1,
      writePage_spec p pre
        (List.replicate p.length none ++ List.replicate (totalLen ps') none) (by simp)]
    have hdrop : (List.replicate p.length (none : Option TimeOff) ++
        List.replicate (totalLen ps') none).drop p.length = List.replicate (totalLen ps') none := by
      have h := List.drop_left (List.replicate p.length (none : Option TimeOff))
        (List.replicate (totalLen ps') none)
      simpa using h
    rw [hdrop]
    rcases hps' : ps' with _ | ⟨p1, ps''⟩
    · simp [totalLen_nil, unpackTimeOffs]
    · rw [hps'] at ih
      have hp200 : p.length = 200 := by
        refine h2 p ?_
        rw [hps', List.dropLast_cons₂]
        exact List.mem_cons_self _ _
      have hlen' : (pre ++ p.map (fun c => some c.Attributes)).length = (i + 1) * 200 := by
        simp [h1, hp200]
        ring
      have hforall : ∀ p' ∈ (p1 :: ps'').dropLast, p'.length = 200 := by
        intro p' hp'
        refine h2 p' ?_
        rw [hps', List.dropLast_cons₂]
        exact List.mem_cons_of_mem _ hp'
      rw [ih (pre ++ p.map (fun c => some c.Attributes)) (i + 1) hlen' hforall]
      simp

theorem emptyUpstream_benign : Benign emptyUpstream := by
  intro q page h hpos
  have hp : page = [] := by
    have h' : Except.ok ([] : List timeOffContainer) = Except.ok page := h
    injection h' with h'
    exact h'.symm
  subst hp
  simp
  omega

theorem oneRecordUpstream_benign : Benign oneRecordUpstream := by
  intro q page h hpos
  have hp : page = [sampleContainer] := by
    have h' : Except.ok [sampleContainer] = Except.ok page := h
    injection h' with h'
    exact h'.symm
  subst hp
  simp
  omega

theorem emptyRun :
    GetTimeOffs emptyUpstream none none 0 1 = ([⟨none, none, 1, 0⟩], Except.ok []) := by
  unfold GetTimeOffs
  rw [fetchLoop]
  norm_num [emptyUpstream, stepSize, timeOffsMaxLimit, unpackTimeOffs]

theorem oneRecRun :
    GetTimeOffs oneRecordUpstream none none 0 1 =
      ([⟨none, none, 1, 0⟩], Except.ok [some sampleTimeOff]) := by
  unfold GetTimeOffs
  rw [fetchLoop]
  norm_num [oneRecordUpstream, stepSize, timeOffsMaxLimit]
  rw [fetchLoop]
  norm_num [unpackTimeOffs, writePage, sampleContainer]

theorem errRun :
    GetTimeOffs errUpstream none none 0 1 =
      ([⟨none, none, 1, 0⟩], Except.error PageError.transport) := by
  unfold GetTimeOffs
  rw [fetchLoop]
  norm_num [errUpstream, stepSize, timeOffsMaxLimit]

theorem getTimeOffs_run (u : Upstream) (start end' : Option QDate) (offset limit : Int)
    (qs : List TimeOffQuery) :
    (∀ e, GetTimeOffs u start end' offset limit = (qs, Except.error e) →
      fetchLoop u (start.map formatQueryDate) (end'.map formatQueryDate) offset limit 0 [] =
        (qs, Except.error e)) ∧
    (∀ res, GetTimeOffs u start end' offset limit = (qs, Except.ok res) →
      ∃ count results,
        fetchLoop u (start.map formatQueryDate) (end'.map formatQueryDate) offset limit 0 [] =
          (qs, Except.ok (count, results)) ∧
        res = unpackTimeOffs (List.replicate count.toNat none) 0 results) := by
  constructor
  · intro e h
    unfold GetTimeOffs at h
    rcases hfl : fetchLoop u (start.map formatQueryDate) (end'.map formatQueryDate)
      offset limit 0 [] with ⟨qs0, r0⟩
    cases r0 with
    | error e0 =>
      rw [hfl] at h
      dsimp only [] at h
      injection h with h1 h2
      subst h1
      injection h2 with h2
      subst h2
      rfl
    | ok pr =>
      rcases pr with ⟨count, results⟩
      rw [hfl] at h
      dsimp only [] at h
      injection h with h1 h2
      cases h2
  · intro res h
    unfold GetTimeOffs at h
    rcases hfl : fetchLoop u (start.map formatQueryDate) (end'.map formatQueryDate)
      offset limit 0 [] with ⟨qs0, r0⟩
    cases r0 with
    | error e0 =>
      rw [hfl] at h
      dsimp only [] at h
      injection h with h1 h2
      cases h2
    | ok pr =>
      rcases pr with ⟨count, results⟩
      rw [hfl] at h
      dsimp only [] at h
      injection h with h1 h2
      subst h1
      injection h2 with h2
      exact ⟨count, results, rfl, h2.symm⟩

/-- C1: for a benign upstream (no page exceeds the per-call requested
limit), nonnegative offset and limit, a successful `GetTimeOffs` returns at
most `limit` records; returning fewer than `limit` is an ordinary
successful outcome (see the witness, where an exhausted upstream yields an
empty result under `limit = 1`). -/
theorem getTimeOffs_length_le_limit (u : Upstream) (start end' : Option QDate)
    (offset limit : Int) (qs : List TimeOffQuery) (res : List (Option TimeOff))
    (hb : Benign u) (hoff : 0 ≤ offset) (hlim : 0 ≤ limit)
    (hrun : GetTimeOffs u start end' offset limit = (qs, Except.ok res)) :
    (res.length : Int) ≤ limit := by
  obtain ⟨count, results, hfl, hres⟩ :=
    (getTimeOffs_run u start end' offset limit qs).2 res hrun
  obtain ⟨ps, hres', hcnt, hlt', hcl, hne', h200⟩ :=
    fetchLoop_benign u _ _ offset limit hb 0 [] qs count results hfl
  have hcle : count ≤ limit := hcl hlim
  have hcnt0 : count = (totalLen ps : Int) := by simpa using hcnt
  rw [hres, unpackTimeOffs_length, List.length_replicate]
  omega

/-- C1 witness: an exhausted upstream under `limit = 1` returns a
zero-record success, and the bound `0 ≤ 1` follows from the theorem. -/
theorem getTimeOffs_length_le_limit_app :
    GetTimeOffs emptyUpstream none none 0 1 = ([⟨none, none, 1, 0⟩], Except.ok []) ∧
    ((([] : List (Option TimeOff)).length : Int) ≤ 1) :=
  ⟨emptyRun, getTimeOffs_length_le_limit emptyUpstream none none 0 1 _ _
    emptyUpstream_benign le_rfl (by norm_num) emptyRun⟩

/-- C2: in every run against a benign upstream, each transport call except
the last received a full page (at least the step size it requested) — so
after a short page no further call is issued — and the number of calls is
finite, bounded by `max limit 0 + 1`. -/
theorem getTimeOffs_stops_after_short_page (u : Upstream) (start end' : Option QDate)
    (offset limit : Int) (qs : List TimeOffQuery) (r : Except PageError (List (Option TimeOff)))
    (hb : Benign u)
    (hrun : GetTimeOffs u start end' offset limit = (qs, r)) :
    (∀ q ∈ qs.dropLast, ∃ page, u q = Except.ok page ∧ q.limit ≤ (page.length : Int)) ∧
    ((qs.length : Int) ≤ max limit 0 + 1) := by
  have hfl : ∃ r0, fetchLoop u (start.map formatQueryDate) (end'.map formatQueryDate)
      offset limit 0 [] = (qs, r0) := by
    cases hr : r with
    | error e => exact ⟨Except.error e, (getTimeOffs_run u start end' offset limit qs).1 e (hr ▸ hrun)⟩
    | ok res =>
      obtain ⟨count, results, hfl, _⟩ :=
        (getTimeOffs_run u start end' offset limit qs).2 res (hr ▸ hrun)
      exact ⟨Except.ok (count, results), hfl⟩
  obtain ⟨r0, hfl⟩ := hfl
  obtain ⟨T1, T2, T3, T4, T5, T6⟩ := fetchLoop_trace u _ _ offset limit 0 [] qs r0 hfl
  constructor
  · intro q hq
    obtain ⟨page, hp1, hp2, _⟩ := T2 q hq
    exact ⟨page, hp1, hp2⟩
  · simpa using T6

/-- C2 witness: the empty upstream under `limit = 1` answers the single
call with a short (empty) page; the run makes one transport call, within
the bound. -/
theorem getTimeOffs_stops_after_short_page_app :
    (∀ q ∈ ([⟨none, none, 1, 0⟩] : List TimeOffQuery).dropLast,
      ∃ page, emptyUpstream q = Except.ok page ∧ q.limit ≤ (page.length : Int)) ∧
    ((([⟨none, none, 1, 0⟩] : List TimeOffQuery).length : Int) ≤ max 1 0 + 1) :=
  getTimeOffs_stops_after_short_page emptyUpstream none none 0 1 _ _
    emptyUpstream_benign emptyRun

theorem stepSize_le_200 (r : Int) : stepSize r ≤ 200 := by
  unfold stepSize timeOffsMaxLimit
  split <;> omega

/-- C3: every transport call issued by `GetTimeOffs` carries
`limit = min(limit - fetched, 200)` — never exceeding the fixed cap — and
`offset = offset + fetched`, where `fetched` is the number of records
received on the preceding calls; the `start_date`/`end_date` parameters are
the `YYYY-MM-DD` rendering of the arguments and are omitted exactly when
the argument is absent. -/
theorem getTimeOffs_query_parameters (u : Upstream) (start end' : Option QDate)
    (offset limit : Int) (qs : List TimeOffQuery) (r : Except PageError (List (Option TimeOff)))
    (hrun : GetTimeOffs u start end' offset limit = (qs, r)) :
    ∀ j (hj : j < qs.length),
      qs.get ⟨j, hj⟩ =
        ⟨start.map formatQueryDate, end'.map formatQueryDate,
          min (limit - (prefLen u qs j : Int)) timeOffsMaxLimit,
          offset + (prefLen u qs j : Int)⟩ ∧
      (qs.get ⟨j, hj⟩).limit ≤ 200 := by
  have hfl : ∃ r0, fetchLoop u (start.map formatQueryDate) (end'.map formatQueryDate)
      offset limit 0 [] = (qs, r0) := by
    cases hr : r with
    | error e => exact ⟨Except.error e, (getTimeOffs_run u start end' offset limit qs).1 e (hr ▸ hrun)⟩
    | ok res =>
      obtain ⟨count, results, hfl, _⟩ :=
        (getTimeOffs_run u start end' offset limit qs).2 res (hr ▸ hrun)
      exact ⟨Except.ok (count, results), hfl⟩
  obtain ⟨r0, hfl⟩ := hfl
  obtain ⟨T1, _, _, _, _, _⟩ := fetchLoop_trace u _ _ offset limit 0 [] qs r0 hfl
  intro j hj
  have h := T1 j hj
  simp only [zero_add] at h
  refine ⟨?_, ?_⟩
  · rw [← stepSize_eq_min]
    exact h.1
  · rw [h.1]
    exact stepSize_le_200 _

/-- C3 witness: the single call of the `limit = 1` run against the empty
upstream carries `limit = min(1, 200) = 1` and `offset = 0`, with both date
parameters omitted. -/
theorem getTimeOffs_query_parameters_app :
    ([⟨none, none, 1, 0⟩] : List TimeOffQuery).get ⟨0, by decide⟩ =
      ⟨none, none, min (1 - (prefLen emptyUpstream [⟨none, none, 1, 0⟩] 0 : Int)) timeOffsMaxLimit,
        0 + (prefLen emptyUpstream [⟨none, none, 1, 0⟩] 0 : Int)⟩ ∧
    (([⟨none, none, 1, 0⟩] : List TimeOffQuery).get ⟨0, by decide⟩).limit ≤ 200 := by
  have h := getTimeOffs_query_parameters emptyUpstream none none 0 1 _ _ emptyRun 0 (by decide)
  simpa using h

/-- C4: for a benign upstream, a successful `GetTimeOffs` returns exactly
the concatenation of the received pages in receipt order, with intra-page
order preserved — the indexed flattening (`i * timeOffsMaxLimit + j`)
neither drops, duplicates nor re-sorts any record. -/
theorem getTimeOffs_concat_pages (u : Upstream) (start end' : Option QDate)
    (offset limit : Int) (qs : List TimeOffQuery) (res : List (Option TimeOff))
    (hb : Benign u)
    (hrun : GetTimeOffs u start end' offset limit = (qs, Except.ok res)) :
    res = ((receivedPages u qs).flatten).map (fun c => some c.Attributes) := by
  obtain ⟨count, results, hfl, hres⟩ :=
    (getTimeOffs_run u start end' offset limit qs).2 res hrun
  obtain ⟨T1, T2, T3, T4, T5, T6⟩ := fetchLoop_trace u _ _ offset limit 0 []
    qs (Except.ok (count, results)) hfl
  obtain ⟨psA, hresA, hcntA, hflatA, hneA⟩ := T5 count results rfl
  obtain ⟨psB, hresB, hcntB, _, _, _, h200B⟩ :=
    fetchLoop_benign u _ _ offset limit hb 0 [] qs count results hfl
  have hpsA : psA = results := by simpa using hresA.symm
  have hpsB : psB = results := by simpa using hresB.symm
  have hcnt0 : count = (totalLen results : Int) := by
    rw [hpsA] at hcntA
    simpa using hcntA
  have h200 : ∀ p ∈ results.dropLast, p.length = 200 := by
    intro p hp
    have h := h200B p (by rw [hpsB]; exact hp)
    omega
  have hflat' : results.flatten = (receivedPages u qs).flatten := by
    rw [← hpsA]
    exact hflatA
  have htn : count.toNat = totalLen results := by omega
  have hspec := unpackTimeOffs_spec results [] 0 (by simp) h200
  rw [hres, htn]
  have harr : List.replicate (totalLen results) (none : Option TimeOff) =
      [] ++ List.replicate (totalLen results) none := by simp
  rw [harr, hspec, hflat']
  simp

/-- C4 witness: a one-record upstream under `limit = 1` returns exactly the
single received record. -/
theorem getTimeOffs_concat_pages_app :
    [some sampleTimeOff] =
      ((receivedPages oneRecordUpstream [⟨none, none, 1, 0⟩]).flatten).map
        (fun c => some c.Attributes) :=
  getTimeOffs_concat_pages oneRecordUpstream none none 0 1 _ _
    oneRecordUpstream_benign oneRecRun

/-- C7: every call before the last succeeded; if the run fails, the error
is the one returned by the upstream on the last issued call, and no records
are returned; conversely a failing last call makes the whole run fail. -/
theorem getTimeOffs_error_aborts (u : Upstream) (start end' : Option QDate)
    (offset limit : Int) (qs : List TimeOffQuery) (r : Except PageError (List (Option TimeOff)))
    (hrun : GetTimeOffs u start end' offset limit = (qs, r)) :
    (∀ q ∈ qs.dropLast, ∃ page, u q = Except.ok page) ∧
    (∀ e, r = Except.error e → ∃ q, qs.getLast? = some q ∧ u q = Except.error e) ∧
    (∀ q e, qs.getLast? = some q → u q = Except.error e → r = Except.error e) := by
  cases hr : r with
  | error e0 =>
    subst hr
    have hfl := (getTimeOffs_run u start end' offset limit qs).1 e0 hrun
    obtain ⟨T1, T2, T3, T4, T5, T6⟩ := fetchLoop_trace u _ _ offset limit 0 []
      qs (Except.error e0) hfl
    refine ⟨?_, ?_, ?_⟩
    · intro q hq
      obtain ⟨page, hp, _, _⟩ := T2 q hq
      exact ⟨page, hp⟩
    · intro e he
      have he0 : e0 = e := by injection he
      subst he0
      exact T3 e0 rfl
    · intro q e hl herr
      have h4 := T4 q e hl herr
      have he0 : e0 = e := by injection h4
      subst he0
      rfl
  | ok res =>
    subst hr
    obtain ⟨count, results, hfl, _⟩ :=
      (getTimeOffs_run u start end' offset limit qs).2 res hrun
    obtain ⟨T1, T2, T3, T4, T5, T6⟩ := fetchLoop_trace u _ _ offset limit 0 []
      qs (Except.ok (count, results)) hfl
    refine ⟨?_, ?_, ?_⟩
    · intro q hq
      obtain ⟨page, hp, _, _⟩ := T2 q hq
      exact ⟨page, hp⟩
    · intro e he
      cases he
    · intro q e hl herr
      cases T4 q e hl herr

/-- C7 witness: an upstream failing with a transport error on the single
call of a `limit = 1` run makes the whole call fail with that error. -/
theorem getTimeOffs_error_aborts_app :
    ∃ q, ([⟨none, none, 1, 0⟩] : List TimeOffQuery).getLast? = some q ∧
      errUpstream q = Except.error PageError.transport :=
  (getTimeOffs_error_aborts errUpstream none none 0 1 _ _ errRun).2.1
    PageError.transport rfl
